import Mathlib

/-!
Verification of the asset-decoding core of faery-tale-rs.

Shallow embedding conventions:
  * Byte buffers are `List Nat`, one entry per byte (entries < 256 for real data).
  * `Res a = Except RunErr a` is the outcome of running a Rust function:
    `.error .fault` models a Rust panic (out-of-range index, failed assert,
    arithmetic underflow in debug mode), `.error (.err s)` models a returned
    `Err(s)` value, and `.ok v` a normal return.
  * Machine integers are `Nat`/`Int`; signed reinterpretation casts are made
    explicit (`toI8`, `toI16`, `toI32`, `intToUsize`).
-/

namespace Faery

/-- Outcome of a fallible/panicking Rust computation: `fault` models a panic
(index out of range, failed assert, debug-mode arithmetic underflow), `err`
models a returned `Err(String)`. -/
inductive RunErr : Type where
  | fault : RunErr
  | err : String → RunErr
deriving Repr, DecidableEq

/-- Result type of an embedded Rust function. -/
abbrev Res (a : Type) : Type := Except RunErr a

/-- Big-endian value of a byte list (`uN::from_be_bytes`). -/
def beValue (l : List Nat) : Nat :=
  l.foldl (fun acc b => acc * 256 + b) 0

/-- Reinterpret a `u16` bit pattern as an `i16` (`i16::from_be_bytes`). -/
def toI16 (v : Nat) : Int :=
  if v < 32768 then (v : Int) else (v : Int) - 65536

/-- Reinterpret a `u32` bit pattern as an `i32` (`i32::from_be_bytes`). -/
def toI32 (v : Nat) : Int :=
  if v < 2147483648 then (v : Int) else (v : Int) - 4294967296

/-- Reinterpret a `u8` as an `i8` (Rust `as i8` on a byte). -/
def toI8 (v : Nat) : Int :=
  if v < 128 then (v : Int) else (v : Int) - 256

/-- Rust `value as usize` applied to a signed value: negative values wrap
modulo 2^64. -/
def intToUsize (v : Int) : Nat :=
  (v % (2 ^ 64 : Int)).toNat

/-- Rust slice `&data[start..fin]`: panics when the range is out of bounds. -/
def rustSlice (data : List Nat) (start fin : Nat) : Res (List Nat) :=
  if start ≤ fin ∧ fin ≤ data.length then
    .ok ((data.drop start).take (fin - start))
  else
    .error .fault

/-!  src/game/byteops.rs: big-endian cursor reads over a byte vector.
Each returns the value read together with the advanced offset.  The source
slices `data[offset .. offset+width]` / indexes `data[offset]`, which panics
when the requested bytes extend past the end of the buffer. -/

/-- byteops.rs `read_u32`. -/
def read_u32 (data : List Nat) (offset : Nat) : Res (Nat × Nat) :=
  if offset + 4 ≤ data.length then
    .ok (beValue ((data.drop offset).take 4), offset + 4)
  else
    .error .fault

/-- byteops.rs `read_i32`. -/
def read_i32 (data : List Nat) (offset : Nat) : Res (Int × Nat) :=
  if offset + 4 ≤ data.length then
    .ok (toI32 (beValue ((data.drop offset).take 4)), offset + 4)
  else
    .error .fault

/-- byteops.rs `read_u16`. -/
def read_u16 (data : List Nat) (offset : Nat) : Res (Nat × Nat) :=
  if offset + 2 ≤ data.length then
    .ok (beValue ((data.drop offset).take 2), offset + 2)
  else
    .error .fault

/-- byteops.rs `read_i16`. -/
def read_i16 (data : List Nat) (offset : Nat) : Res (Int × Nat) :=
  if offset + 2 ≤ data.length then
    .ok (toI16 (beValue ((data.drop offset).take 2)), offset + 2)
  else
    .error .fault

/-- byteops.rs `read_u8`. -/
def read_u8 (data : List Nat) (offset : Nat) : Res (Nat × Nat) :=
  if offset < data.length then
    .ok (data.getD offset 0, offset + 1)
  else
    .error .fault

/-- C1: the spec requires every primitive cursor read to fail with a
Truncated error when the requested bytes extend past the end of the buffer.
The code (src/game/byteops.rs) instead indexes/slices the vector directly and
panics; no error value is ever produced.  This theorem evaluates each of the
five reads at inputs one byte too short, showing the panic outcome, and also
checks the in-bounds behavior (big-endian value, offset advanced by the
width), confirming that half of the claim. -/
theorem c1_reads_panic_not_truncated :
    read_u8 [] 0 = .error .fault ∧
    read_u16 [7] 0 = .error .fault ∧
    read_i16 [7] 0 = .error .fault ∧
    read_u32 [1, 2, 3] 0 = .error .fault ∧
    read_i32 [1, 2, 3] 0 = .error .fault ∧
    read_u32 [1, 2, 3, 4] 1 = .error .fault ∧
    read_u32 [0x12, 0x34, 0x56, 0x78] 0 = .ok (0x12345678, 4) ∧
    read_i32 [0xFF, 0xFF, 0xFF, 0xFF] 0 = .ok (-1, 4) ∧
    read_u16 [0xAB, 0xCD] 0 = .ok (0xABCD, 2) ∧
    read_i16 [0xFF, 0xFE] 0 = .ok (-2, 2) ∧
    read_u8 [9] 0 = .ok (9, 1) := by
  exact ⟨rfl, rfl, rfl, rfl, rfl, rfl, rfl, rfl, rfl, rfl, rfl⟩

/-!  src/game/colors.rs: 4-bit-per-channel colors and palettes. -/

/-- colors.rs `RGB4`: reduced-precision color, 4 bits per channel packed into
the low 12 bits of a `u16`. -/
structure RGB4 : Type where
  color : Nat
deriving Repr, DecidableEq

/-- colors.rs `RGB4::r`: red channel expanded to 8 bits by nibble
replication. -/
def RGB4.r (c : RGB4) : Nat :=
  let rc := (c.color &&& 0xF00) >>> 8
  rc ||| (rc <<< 4)

/-- colors.rs `RGB4::g`. -/
def RGB4.g (c : RGB4) : Nat :=
  let gc := (c.color &&& 0xF0) >>> 4
  gc ||| (gc <<< 4)

/-- colors.rs `RGB4::b`. -/
def RGB4.b (c : RGB4) : Nat :=
  let bc := c.color &&& 0x0F
  bc ||| (bc <<< 4)

/-- colors.rs `Palette`. -/
structure Palette : Type where
  colors : List RGB4
deriving Repr, DecidableEq

/-- colors.rs `Palette::to_rgba32_table`, lines 107-128.  The source loop
pushes one entry per index in `0..(1 << depth)`; it is embedded as a map over
`List.range`. -/
def Palette.to_rgba32_table (p : Palette) (depth : Nat) : Except String (List Nat) :=
  if depth < 1 ∨ depth > 5 then
    .error "Palette depth must be 1 to 5 inclusive"
  else
    .ok ((List.range (1 <<< depth)).map (fun i =>
      if i < p.colors.length then
        let c := p.colors.getD i ⟨0⟩
        (c.r <<< 24) ||| (c.g <<< 16) ||| (c.b <<< 8) ||| 0xFF
      else 0))

theorem and_f00_shift (c : Nat) : (c &&& 0xF00) >>> 8 = c / 256 % 16 := by
  have h : c / 256 % 16 = (c >>> 8) &&& 0xF := by
    rw [Nat.shiftRight_eq_div_pow]
    have := Nat.and_pow_two_sub_one_eq_mod (c / 2 ^ 8) 4
    norm_num at this ⊢
    omega
  have h3 : ∀ i, Nat.testBit 0xF00 (8 + i) = Nat.testBit 0xF i := by
    intro i
    rw [← Nat.testBit_shiftRight]
    norm_num [Nat.shiftRight_eq_div_pow]
  rw [h]
  apply Nat.eq_of_testBit_eq
  intro i
  simp [Nat.testBit_and, Nat.testBit_shiftRight, h3]

theorem and_f0_shift (c : Nat) : (c &&& 0xF0) >>> 4 = c / 16 % 16 := by
  have h : c / 16 % 16 = (c >>> 4) &&& 0xF := by
    rw [Nat.shiftRight_eq_div_pow]
    have := Nat.and_pow_two_sub_one_eq_mod (c / 2 ^ 4) 4
    norm_num at this ⊢
    omega
  have h3 : ∀ i, Nat.testBit 0xF0 (4 + i) = Nat.testBit 0xF i := by
    intro i
    rw [← Nat.testBit_shiftRight]
    norm_num [Nat.shiftRight_eq_div_pow]
  rw [h]
  apply Nat.eq_of_testBit_eq
  intro i
  simp [Nat.testBit_and, Nat.testBit_shiftRight, h3]

theorem and_0f (c : Nat) : c &&& 0x0F = c % 16 := by
  have := Nat.and_pow_two_sub_one_eq_mod c 4
  norm_num at this ⊢
  omega

/-- Replicating a nibble into both halves of a byte is multiplication
by 17. -/
theorem nibble_replicate (n : Nat) (h : n < 16) : n ||| (n <<< 4) = 17 * n := by
  interval_cases n <;> rfl

theorem rgb4_r_eq (c : RGB4) : c.r = 17 * (c.color / 256 % 16) := by
  rw [RGB4.r]
  simp only [and_f00_shift]
  exact nibble_replicate _ (Nat.mod_lt _ (by norm_num))

theorem rgb4_g_eq (c : RGB4) : c.g = 17 * (c.color / 16 % 16) := by
  rw [RGB4.g]
  simp only [and_f0_shift]
  exact nibble_replicate _ (Nat.mod_lt _ (by norm_num))

theorem rgb4_b_eq (c : RGB4) : c.b = 17 * (c.color % 16) := by
  rw [RGB4.b]
  simp only [and_0f]
  exact nibble_replicate _ (Nat.mod_lt _ (by norm_num))

/-- C5: for depth in 1..=5, `to_rgba32_table` returns exactly 2^depth
entries; each index below the color count maps to
(r<<24)|(g<<16)|(b<<8)|0xFF with every 8-bit channel the stored 4-bit nibble
replicated into both nibbles (17 * nibble); each index at or beyond the
color count maps to 0; depth outside 1..=5 is an error.  The palette
[0x006, 0xFFF, 0x390, 0x000] at depth 2 yields
[0x000066FF, 0xFFFFFFFF, 0x339900FF, 0x000000FF]. -/
theorem c5_to_rgba32_table :
    (∀ (pal : Palette) (depth : Nat), 1 ≤ depth → depth ≤ 5 →
      ∃ t, pal.to_rgba32_table depth = .ok t ∧
        t.length = 2 ^ depth ∧
        (∀ i, i < 2 ^ depth → i < pal.colors.length →
          t.getD i 0 =
            ((17 * ((pal.colors.getD i ⟨0⟩).color / 256 % 16)) <<< 24) |||
            ((17 * ((pal.colors.getD i ⟨0⟩).color / 16 % 16)) <<< 16) |||
            ((17 * ((pal.colors.getD i ⟨0⟩).color % 16)) <<< 8) ||| 0xFF) ∧
        (∀ i, i < 2 ^ depth → pal.colors.length ≤ i → t.getD i 0 = 0)) ∧
    (∀ (pal : Palette) (depth : Nat), depth < 1 ∨ 5 < depth →
      ∃ e, pal.to_rgba32_table depth = .error e) ∧
    Palette.to_rgba32_table ⟨[⟨0x006⟩, ⟨0xFFF⟩, ⟨0x390⟩, ⟨0x000⟩]⟩ 2 =
      .ok [0x000066FF, 0xFFFFFFFF, 0x339900FF, 0x000000FF] := by
  refine ⟨?_, ?_, by rfl⟩
  · intro pal depth h1 h5
    have hd : ¬ (depth < 1 ∨ depth > 5) := by omega
    have hpow : (1 <<< depth) = 2 ^ depth := by
      rw [Nat.shiftLeft_eq, one_mul]
    refine ⟨_, by rw [Palette.to_rgba32_table, if_neg hd], ?_, ?_, ?_⟩
    · simp [hpow]
    · intro i hi hcount
      have hmem : i < (List.range (1 <<< depth)).length := by
        simpa [hpow] using hi
      rw [List.getD_eq_getElem _ _ (by simpa using hmem)]
      simp only [List.getElem_map, List.getElem_range]
      rw [if_pos hcount]
      simp only [rgb4_r_eq, rgb4_g_eq, rgb4_b_eq]
    · intro i hi hcount
      have hmem : i < (List.range (1 <<< depth)).length := by
        simpa [hpow] using hi
      rw [List.getD_eq_getElem _ _ (by simpa using hmem)]
      simp only [List.getElem_map, List.getElem_range]
      rw [if_neg (by omega)]
  · intro pal depth hbad
    refine ⟨"Palette depth must be 1 to 5 inclusive", ?_⟩
    rw [Palette.to_rgba32_table, if_pos (by omega)]

/-- Witness for C5 at a concrete palette and depth. -/
theorem c5_to_rgba32_table_witness :
    ∃ t, Palette.to_rgba32_table ⟨[⟨0x006⟩, ⟨0xFFF⟩]⟩ 1 = .ok t ∧
      t.length = 2 ∧ t.getD 0 0 = 0x000066FF := by
  obtain ⟨t, hok, hlen, hlow, -⟩ :=
    c5_to_rgba32_table.1 ⟨[⟨0x006⟩, ⟨0xFFF⟩]⟩ 1 (by decide) (by decide)
  refine ⟨t, hok, by simpa using hlen, ?_⟩
  have := hlow 0 (by decide) (by decide)
  simpa using this

/-!  src/game/bitmap.rs: planar bitmaps.  The `index_buffer` field embeds the
`RefCell<Option<Vec<usize>>>` cache; functions that may populate it return
the updated `BitMap` alongside their result. -/

/-- bitmap.rs `BitMap`. -/
structure BitMap : Type where
  width : Nat
  height : Nat
  depth : Nat
  stride : Nat
  planes : List (List Nat)
  index_buffer : Option (List Nat)
deriving Repr, DecidableEq

/-- bitmap.rs `BitMap::with_data`, lines 90-109: plane `pp` is the slice
`data[pp*plane_size .. (pp+1)*plane_size]` (Rust slicing panics when the
range exceeds the data). -/
def BitMap.with_data (data : List Nat) (width height depth stride : Nat) :
    Res BitMap := do
  let plane_size := stride * height
  let planes ← (List.range depth).mapM (fun pp =>
    rustSlice data (pp * plane_size) (pp * plane_size + plane_size))
  pure ⟨width, height, depth, stride, planes, none⟩

/-- One iteration of the `with_interleaved_data` copy loop (bitmap.rs lines
66-81).  After `k` iterations the source's wrapping `plane_index` equals
`k % depth` and its running `offset` equals `k * stride`. -/
def ileave_step (data : List Nat) (stride depth : Nat)
    (planes : List (List Nat)) (k : Nat) : Res (List (List Nat)) := do
  if k % depth < planes.length then
    let row ← rustSlice data (k * stride) (k * stride + stride)
    pure (planes.set (k % depth) (planes.getD (k % depth) [] ++ row))
  else
    .error .fault

/-- bitmap.rs `BitMap::with_interleaved_data`, lines 49-84: `depth` planes
are preallocated empty, then the loop runs `height*depth` times copying one
`stride`-byte row per iteration into the cycling destination plane. -/
def BitMap.with_interleaved_data (data : List Nat)
    (width height depth stride : Nat) : Res BitMap := do
  let planes ← (List.range (height * depth)).foldlM
    (ileave_step data stride depth) (List.replicate depth [])
  pure ⟨width, height, depth, stride, planes, none⟩

/-- Plane stride used by bitmap.rs `BitMap::build` (line 131):
`((width + 15) >> 3) & !1_usize`, with the usize addition wrapping
modulo 2^64. -/
def buildStride (width : Nat) : Nat :=
  (((width + 15) % 2 ^ 64) >>> 3) &&& 0xFFFFFFFFFFFFFFFE

/-- bitmap.rs `BitMap::build`, lines 121-144. -/
def BitMap.build (width height depth : Nat) : Except String BitMap :=
  if depth < 1 ∨ depth > 5 then
    .error "BitMap depth must be 1 to 5 inclusive"
  else
    let stride := buildStride width
    .ok ⟨width, height, depth, stride,
      List.replicate depth (List.replicate (stride * height) 0), none⟩

/-- Clearing the low bit of a 64-bit value with `& !1_usize`. -/
theorem and_not_one_eq (x : Nat) (hx : x < 2 ^ 64) :
    x &&& 0xFFFFFFFFFFFFFFFE = 2 * (x / 2) := by
  apply Nat.eq_of_testBit_eq
  intro i
  have hm : ∀ j, Nat.testBit 0xFFFFFFFFFFFFFFFE (j + 1) = decide (j < 63) := by
    intro j
    have h0 : (0xFFFFFFFFFFFFFFFE : Nat) = 2 ^ 1 * (2 ^ 63 - 1) := by norm_num
    rw [h0, Nat.testBit_mul_pow_two]
    have h1 : j + 1 - 1 = j := rfl
    rw [h1, Nat.testBit_two_pow_sub_one]
    simp
  have h2 : ∀ j, (2 * (x / 2)).testBit (j + 1) = (x / 2).testBit j := by
    intro j
    have h0 : 2 * (x / 2) = 2 ^ 1 * (x / 2) := by ring
    rw [h0, Nat.testBit_mul_pow_two]
    simp
  cases i with
  | zero => simp [Nat.testBit_and]
  | succ n =>
    rw [Nat.testBit_and, hm, h2]
    by_cases hn : n < 63
    · simp [hn, Nat.testBit_succ]
    · have hfalse : x.testBit (n + 1) = false := by
        apply Nat.testBit_lt_two_pow
        calc x < 2 ^ 64 := hx
        _ ≤ 2 ^ (n + 1) := Nat.pow_le_pow_right (by norm_num) (by omega)
      have hfalse2 : (x / 2).testBit n = false := by
        rw [← Nat.testBit_succ]
        exact hfalse
      simp [hn, hfalse2]

/-- C6: for every width that does not overflow the usize addition, the
builder's plane stride `((w+15)>>3) & !1` is even and padded rows hold at
least `w` pixel bits. -/
theorem c6_stride_even_and_wide (w : Nat) (h : w + 15 < 2 ^ 64) :
    2 ∣ buildStride w ∧ w ≤ buildStride w * 8 := by
  have hmod : (w + 15) % 2 ^ 64 = w + 15 := Nat.mod_eq_of_lt h
  have hshift : (w + 15) >>> 3 = (w + 15) / 8 := by
    rw [Nat.shiftRight_eq_div_pow]
  have hlt : (w + 15) / 8 < 2 ^ 64 := by
    have : (w + 15) / 8 ≤ w + 15 := Nat.div_le_self _ _
    omega
  have heq : buildStride w = 2 * ((w + 15) / 8 / 2) := by
    rw [buildStride, hmod, hshift, and_not_one_eq _ hlt]
  constructor
  · rw [heq]
    exact dvd_mul_right 2 _
  · rw [heq]
    omega

/-- Witness for C6 at width 320 (the game's screen width): stride 40. -/
theorem c6_stride_even_and_wide_witness :
    320 + 15 < 2 ^ 64 ∧ 2 ∣ buildStride 320 ∧ 320 ≤ buildStride 320 * 8 :=
  ⟨by norm_num, c6_stride_even_and_wide 320 (by norm_num)⟩

/-- One plane's contribution to a pixel's index (bitmap.rs lines 185-190):
bit `7 - (xx & 7)` of byte `yy * stride + (xx >> 3)` of plane `pp`, ORed
into the accumulator at bit position `pp`; plane and byte indexing panic
when out of range. -/
def pixel_plane_step (bm : BitMap) (yy xx acc pp : Nat) : Res Nat :=
  if hp : pp < bm.planes.length then
    let plane := bm.planes.get ⟨pp, hp⟩
    let byte_index := yy * bm.stride + (xx >>> 3)
    if hb : byte_index < plane.length then
      let bit := (plane.get ⟨byte_index, hb⟩ >>> (7 - (xx &&& 0x07))) &&& 0x01
      pure (acc ||| (bit <<< pp))
    else .error .fault
  else .error .fault

/-- Index value of pixel (yy, xx): the inner plane loop of
bitmap.rs `update_rgb32`, lines 184-191. -/
def pixel_index_at (bm : BitMap) (yy xx : Nat) : Res Nat :=
  (List.range bm.depth).foldlM (pixel_plane_step bm yy xx) 0

/-- The index-buffer construction scan of bitmap.rs `update_rgb32`, lines
179-197: all pixels in row-major order. -/
def build_index_buffer (bm : BitMap) : Res (List Nat) := do
  let rows ← (List.range bm.height).mapM (fun yy =>
    (List.range bm.width).mapM (fun xx => pixel_index_at bm yy xx))
  pure rows.flatten

/-- The four byte stores of one output pixel (bitmap.rs lines 211-214);
Rust vector indexing panics when the offset is out of range. -/
def write_pixel (pixels : List Nat) (off color : Nat) : Res (List Nat) :=
  if off + 4 ≤ pixels.length then
    .ok ((((pixels.set off ((color >>> 24) &&& 0xFF)).set
      (off + 1) ((color >>> 16) &&& 0xFF)).set
      (off + 2) ((color >>> 8) &&& 0xFF)).set
      (off + 3) (color &&& 0xFF))
  else .error .fault

/-- Inner column loop of the output phase of bitmap.rs `update_rgb32`
(lines 207-215). -/
def write_row (indices color_table : List Nat) (width row_start pixel_row_start : Nat)
    (pixels : List Nat) : Res (List Nat) :=
  (List.range width).foldlM (fun px col =>
    if hi : row_start + col < indices.length then
      let color_index := indices.get ⟨row_start + col, hi⟩
      if hc : color_index < color_table.length then
        write_pixel px (pixel_row_start + col * 4) (color_table.get ⟨color_index, hc⟩)
      else .error .fault
    else .error .fault) pixels

/-- Outer row loop of the output phase of bitmap.rs `update_rgb32`
(lines 204-216). -/
def write_rows (indices color_table : List Nat) (width height stride : Nat)
    (pixels : List Nat) : Res (List Nat) :=
  (List.range height).foldlM (fun px row =>
    write_row indices color_table width (row * width) (row * stride) px) pixels

/-- The cache consultation of bitmap.rs `update_rgb32`, lines 179-201: an
empty cache cell is populated by the pixel scan, a full one is reused
untouched. -/
def cached_index_buffer (bm : BitMap) : Res (List Nat) :=
  match bm.index_buffer with
  | none => build_index_buffer bm
  | some ib => .ok ib

/-- bitmap.rs `BitMap::update_rgb32`, lines 163-219.  The returned `BitMap`
carries the state of the `index_buffer` cache cell after the call. -/
def BitMap.update_rgb32 (bm : BitMap) (pixels : List Nat) (stride : Nat)
    (colors : Palette) (key_color : Option Nat) : Res (List Nat × BitMap) :=
  if pixels.length < bm.width * bm.height * 4 then
    .error (.err "Provided pixel buffer is too small for BitMap dimensions")
  else
    match colors.to_rgba32_table bm.depth with
    | .error e => .error (.err e)
    | .ok table0 =>
      let color_table :=
        match key_color with
        | some key_index =>
          if key_index < table0.length then table0.set key_index 0 else table0
        | none => table0
      match cached_index_buffer bm with
      | .error e => .error e
      | .ok indices =>
        match write_rows indices color_table bm.width bm.height stride pixels with
        | .error e => .error e
        | .ok px2 => .ok (px2, { bm with index_buffer := some indices })

/-- The row-interleaved permutation of contiguous-plane data (the input
layout documented for `with_interleaved_data`, bitmap.rs lines 39-48): the
k-th stride-sized block of the interleaved stream is row `k / depth` of
plane `k % depth` of the contiguous data. -/
def reinterleave (data : List Nat) (height depth stride : Nat) : List Nat :=
  ((List.range (height * depth)).map (fun k =>
    (data.drop ((k % depth) * (stride * height) + (k / depth) * stride)).take stride)).flatten

theorem mapM_ok_of_forall {α β : Type} (l : List α) (f : α → Res β) (g : α → β)
    (h : ∀ a ∈ l, f a = .ok (g a)) : l.mapM f = .ok (l.map g) := by
  induction l with
  | nil => rfl
  | cons a t ih =>
    rw [List.mapM_cons, h a (List.mem_cons_self a t),
      ih (fun b hb => h b (List.mem_cons_of_mem a hb))]
    rfl

/-- Joining consecutive stride-sized slices of a list gives one large
slice. -/
theorem flatten_consecutive_slices (data : List Nat) (s : Nat) :
    ∀ (m a : Nat),
      ((List.range m).map (fun r => (data.drop (a + r * s)).take s)).flatten
        = (data.drop a).take (s * m) := by
  intro m
  induction m with
  | zero => simp
  | succ k ih =>
    intro a
    rw [List.range_succ, List.map_append, List.flatten_append, ih a]
    have hmul : s * (k + 1) = s * k + s := by ring
    rw [hmul, List.take_add, List.drop_drop]
    have harith : a + s * k = a + k * s := by ring
    simp [harith]

/-- Extracting the i-th block of a flattening of equal-length blocks. -/
theorem flatten_block_slice (s : Nat) :
    ∀ (bs : List (List Nat)), (∀ b ∈ bs, b.length = s) →
      ∀ i, i < bs.length → ((bs.flatten.drop (i * s)).take s) = bs.getD i [] := by
  intro bs
  induction bs with
  | nil => intro _ i hi; simp at hi
  | cons b t ih =>
    intro hlen i hi
    cases i with
    | zero =>
      rw [List.flatten_cons]
      simp only [Nat.zero_mul, List.drop_zero, List.getD_cons_zero]
      rw [← hlen b (List.mem_cons_self b t), List.take_left]
    | succ j =>
      rw [List.flatten_cons]
      have hb : b.length = s := hlen b (List.mem_cons_self b t)
      have hdrop : (b ++ t.flatten).drop ((j + 1) * s) = t.flatten.drop (j * s) := by
        have : (j + 1) * s = b.length + j * s := by rw [hb]; ring
        rw [this, List.drop_append]
      rw [hdrop, List.getD_cons_succ]
      exact ih (fun x hx => hlen x (List.mem_cons_of_mem b hx)) j
        (by simpa using Nat.lt_of_succ_lt_succ hi)

theorem res_bind_ok {α β : Type} (a : α) (f : α → Res β) :
    (Except.ok a >>= f : Res β) = f a := rfl

theorem rustSlice_ok (data : List Nat) (start s : Nat)
    (h : start + s ≤ data.length) :
    rustSlice data start (start + s) = .ok ((data.drop start).take s) := by
  have h2 : start + s - start = s := by omega
  rw [rustSlice, if_pos ⟨Nat.le_add_right _ _, h⟩, h2]

theorem res_pure_eq {α : Type} (a : α) : (pure a : Res α) = .ok a := rfl

theorem res_bind_error {α β : Type} (e : RunErr) (f : α → Res β) :
    (Except.error e >>= f : Res β) = .error e := rfl

theorem map_range_set (d : Nat) (G : Nat → List Nat) (j : Nat) (v : List Nat) :
    ((List.range d).map G).set j v
      = (List.range d).map (fun p => if p = j then v else G p) := by
  apply List.ext_getElem
  · simp
  · intro i h1 h2
    simp only [List.getElem_set, List.getElem_map, List.getElem_range]
    by_cases hij : j = i
    · subst hij
      simp
    · rw [if_neg hij, if_neg (fun hc => hij hc.symm)]

/-- Effect of one depth-sized group of iterations of the interleave copy
loop: starting from planes `F 0, ..., F (d-1)` with `base` a multiple of
`d`, the first `j` planes each gain thir row slice. -/
theorem ileave_group (data : List Nat) (s d q : Nat) (F : Nat → List Nat)
    (hlen : (q * d + d) * s ≤ data.length) :
    ∀ j, j ≤ d →
      (((List.range j).map (fun x => q * d + x)).foldlM (ileave_step data s d)
        ((List.range d).map F)) =
      .ok ((List.range d).map (fun p =>
        if p < j then F p ++ (data.drop ((q * d + p) * s)).take s else F p)) := by
  intro j
  induction j with
  | zero =>
    intro _
    simp only [List.range_zero, List.map_nil, List.foldlM_nil]
    rfl
  | succ i ih =>
    intro hj
    have hid : i < d := Nat.lt_of_succ_le hj
    have hstep : ileave_step data s d
        ((List.range d).map (fun p =>
          if p < i then F p ++ (data.drop ((q * d + p) * s)).take s else F p))
        (q * d + i)
        = .ok ((List.range d).map (fun p =>
          if p < i + 1 then F p ++ (data.drop ((q * d + p) * s)).take s
          else F p)) := by
      have hmod : (q * d + i) % d = i := by
        rw [Nat.mul_add_mod' q d i]  -- may need adjustment
        exact Nat.mod_eq_of_lt hid
      have hplen : ((List.range d).map (fun p =>
          if p < i then F p ++ (data.drop ((q * d + p) * s)).take s
          else F p)).length = d := by simp
      rw [ileave_step]
      rw [hmod, hplen]
      rw [if_pos hid]
      have hbound : (q * d + i) * s + s ≤ data.length := by
        have heq2 : (q * d + i) * s + s = (q * d + i + 1) * s := by ring
        have hle : (q * d + i + 1) * s ≤ (q * d + d) * s :=
          Nat.mul_le_mul_right s (by omega)
        omega
      rw [rustSlice_ok data _ s hbound, res_bind_ok]
      have hgetD : ((List.range d).map (fun p =>
          if p < i then F p ++ (data.drop ((q * d + p) * s)).take s
          else F p)).getD i [] = F i := by
        rw [List.getD_eq_getElem _ _ (by simpa using hid)]
        simp [hid]
      rw [hgetD, map_range_set]
      rw [res_pure_eq]
      congr 1
      apply List.map_congr_left
      intro p hp
      by_cases hpi : p = i
      · subst hpi
        simp
      · by_cases hplt : p < i
        · rw [if_neg hpi, if_pos hplt, if_pos (by omega)]
        · rw [if_neg hpi, if_neg hplt, if_neg (by omega)]
    rw [List.range_succ, List.map_append, List.foldlM_append,
      ih (Nat.le_of_lt hid), res_bind_ok]
    simp only [List.map_cons, List.map_nil, List.foldlM_cons, List.foldlM_nil]
    rw [hstep, res_bind_ok]
    rfl

/-- Full characterization of the interleave copy loop: plane `p` receives,
in order, the stride-sized blocks at positions `r * depth + p` of the
source stream. -/
theorem ileave_planes (data : List Nat) (s d : Nat) :
    ∀ h0 : Nat, h0 * d * s ≤ data.length →
      (List.range (h0 * d)).foldlM (ileave_step data s d) (List.replicate d []) =
        .ok ((List.range d).map (fun p =>
          ((List.range h0).map
            (fun r => (data.drop ((r * d + p) * s)).take s)).flatten)) := by
  intro h0
  induction h0 with
  | zero =>
    intro _
    simp only [Nat.zero_mul, List.range_zero, List.foldlM_nil, List.map_nil,
      List.flatten_nil]
    rw [List.map_const', List.length_range]
    rfl
  | succ k ih =>
    intro hlen
    have hmul : (k + 1) * d = k * d + d := by ring
    have hlenk : k * d * s ≤ data.length := by
      have : k * d * s ≤ (k + 1) * d * s := by
        apply Nat.mul_le_mul_right
        apply Nat.mul_le_mul_right
        omega
      omega
    have hlen2 : (k * d + d) * s ≤ data.length := by
      have : (k * d + d) * s = (k + 1) * d * s := by ring
      omega
    rw [hmul, List.range_add, List.foldlM_append, ih hlenk, res_bind_ok]
    have hgroup := ileave_group data s d k
      (fun p => ((List.range k).map
        (fun r => (data.drop ((r * d + p) * s)).take s)).flatten)
      hlen2 d (Nat.le_refl d)
    rw [hgroup]
    congr 1
    apply List.map_congr_left
    intro p hp
    have hpd : p < d := List.mem_range.mp hp
    rw [if_pos hpd, List.range_succ, List.map_append, List.flatten_append]
    simp

theorem with_data_ok (data : List Nat) (w h d s : Nat)
    (hlen : d * (s * h) ≤ data.length) :
    BitMap.with_data data w h d s =
      .ok ⟨w, h, d, s,
        (List.range d).map (fun pp => (data.drop (pp * (s * h))).take (s * h)),
        none⟩ := by
  rw [BitMap.with_data]
  have hmap := mapM_ok_of_forall (List.range d)
    (fun pp => rustSlice data (pp * (s * h)) (pp * (s * h) + s * h))
    (fun pp => (data.drop (pp * (s * h))).take (s * h))
    (by
      intro pp hpp
      have hppd : pp < d := List.mem_range.mp hpp
      apply rustSlice_ok
      calc pp * (s * h) + s * h = (pp + 1) * (s * h) := by ring
      _ ≤ d * (s * h) := Nat.mul_le_mul_right _ (by omega)
      _ ≤ data.length := hlen)
  simp only [hmap, res_bind_ok]
  rfl
theorem reinterleave_block_len (data : List Nat) (h d s : Nat) (hd : 0 < d)
    (hlen : data.length = d * (s * h)) (k : Nat) (hk : k < h * d) :
    ((data.drop ((k % d) * (s * h) + (k / d) * s)).take s).length = s := by
  have hkd : k / d < h := Nat.div_lt_of_lt_mul (by rw [Nat.mul_comm d h]; exact hk)
  have hmd : k % d < d := Nat.mod_lt _ hd
  have hh : 0 < h := Nat.lt_of_le_of_lt (Nat.zero_le _) hkd
  have hs_le : s ≤ h * s := Nat.le_mul_of_pos_left s hh
  have hsh : s * h = h * s := Nat.mul_comm s h
  have hshle : s * h ≤ d * (s * h) := Nat.le_mul_of_pos_left _ hd
  have h1 : (k % d) * (s * h) ≤ (d - 1) * (s * h) :=
    Nat.mul_le_mul_right _ (by omega)
  have h2 : (k / d) * s ≤ (h - 1) * s := Nat.mul_le_mul_right _ (by omega)
  have h3 : (d - 1) * (s * h) = d * (s * h) - s * h := by rw [Nat.sub_one_mul]
  have h4 : (h - 1) * s = h * s - s := by rw [Nat.sub_one_mul]
  simp only [List.length_take, List.length_drop]
  omega

theorem reinterleave_length (data : List Nat) (h d s : Nat) (hd : 0 < d)
    (hlen : data.length = d * (s * h)) :
    (reinterleave data h d s).length = h * d * s := by
  rw [reinterleave, List.length_flatten, List.map_map]
  have hmap : (List.range (h * d)).map (List.length ∘ fun k =>
      (data.drop ((k % d) * (s * h) + (k / d) * s)).take s)
      = (List.range (h * d)).map (fun _ => s) := by
    apply List.map_congr_left
    intro k hk
    simp only [Function.comp_apply]
    exact reinterleave_block_len data h d s hd hlen k (List.mem_range.mp hk)
  rw [hmap, List.map_const', List.length_range, List.sum_replicate, smul_eq_mul]

theorem reinterleave_block (data : List Nat) (h d s : Nat) (hd : 0 < d)
    (hlen : data.length = d * (s * h)) (k : Nat) (hk : k < h * d) :
    ((reinterleave data h d s).drop (k * s)).take s
      = (data.drop ((k % d) * (s * h) + (k / d) * s)).take s := by
  have hall : ∀ b ∈ (List.range (h * d)).map (fun k2 =>
      (data.drop ((k2 % d) * (s * h) + (k2 / d) * s)).take s), b.length = s := by
    intro b hb
    obtain ⟨k2, hk2, hbk⟩ := List.mem_map.mp hb
    rw [← hbk]
    exact reinterleave_block_len data h d s hd hlen k2 (List.mem_range.mp hk2)
  have hext := flatten_block_slice s ((List.range (h * d)).map (fun k2 =>
      (data.drop ((k2 % d) * (s * h) + (k2 / d) * s)).take s)) hall k
    (by simpa using hk)
  rw [reinterleave, hext, List.getD_eq_getElem _ _ (by simpa using hk)]
  simp

/-- C4: constructing a BitMap from the row-interleaved permutation of
contiguous-plane data via `with_interleaved_data` yields exactly the same
BitMap — in particular the same planes, hence the same per-pixel
palette-index array under conversion — as constructing it directly from the
contiguous data via `with_data`. -/
theorem c4_interleaved_matches_contiguous (data : List Nat) (w h d s : Nat)
    (hd : 0 < d) (hlen : data.length = d * (s * h)) :
    ∃ bm1 bm2,
      BitMap.with_data data w h d s = .ok bm1 ∧
      BitMap.with_interleaved_data (reinterleave data h d s) w h d s = .ok bm2 ∧
      bm2.planes = bm1.planes ∧
      bm2 = bm1 ∧
      build_index_buffer bm2 = build_index_buffer bm1 := by
  have hplanes : (List.range d).map (fun p =>
      ((List.range h).map
        (fun r => ((reinterleave data h d s).drop ((r * d + p) * s)).take s)).flatten)
      = (List.range d).map (fun pp => (data.drop (pp * (s * h))).take (s * h)) := by
    apply List.map_congr_left
    intro p hp
    have hpd : p < d := List.mem_range.mp hp
    have hrow : ∀ r, r < h →
        ((reinterleave data h d s).drop ((r * d + p) * s)).take s
          = (data.drop (p * (s * h) + r * s)).take s := by
      intro r hr
      have hk : r * d + p < h * d := by
        calc r * d + p < r * d + d := by omega
        _ = (r + 1) * d := by ring
        _ ≤ h * d := Nat.mul_le_mul_right _ (by omega)
      rw [reinterleave_block data h d s hd hlen _ hk]
      have hmod : (r * d + p) % d = p := by
        rw [Nat.mul_add_mod' r d p]
        exact Nat.mod_eq_of_lt hpd
      have hdiv : (r * d + p) / d = r := by
        rw [Nat.mul_comm r d, Nat.mul_add_div hd, Nat.div_eq_of_lt hpd]
        omega
      rw [hmod, hdiv]
    calc ((List.range h).map
          (fun r => ((reinterleave data h d s).drop ((r * d + p) * s)).take s)).flatten
        = ((List.range h).map
          (fun r => (data.drop (p * (s * h) + r * s)).take s)).flatten := by
          congr 1
          apply List.map_congr_left
          intro r hr
          exact hrow r (List.mem_range.mp hr)
    _ = (data.drop (p * (s * h))).take (s * h) :=
          flatten_consecutive_slices data s h (p * (s * h))
  refine ⟨⟨w, h, d, s,
      (List.range d).map (fun pp => (data.drop (pp * (s * h))).take (s * h)),
      none⟩,
    ⟨w, h, d, s,
      (List.range d).map (fun pp => (data.drop (pp * (s * h))).take (s * h)),
      none⟩,
    with_data_ok data w h d s (by omega), ?_, rfl, rfl, rfl⟩
  rw [BitMap.with_interleaved_data]
  have hIlen : h * d * s ≤ (reinterleave data h d s).length := by
    rw [reinterleave_length data h d s hd hlen]
  have hfold := ileave_planes (reinterleave data h d s) s d h hIlen
  simp only [hfold, res_bind_ok]
  rw [hplanes]
  rfl

theorem mapM_range_char {β : Type} (dflt : β) (f : Nat → Res β) :
    ∀ n r, (List.range n).mapM f = .ok r →
      r.length = n ∧ ∀ i, i < n → f i = .ok (r.getD i dflt) := by
  intro n
  induction n with
  | zero =>
    intro r hr
    simp only [List.range_zero, List.mapM_nil] at hr
    cases hr
    exact ⟨rfl, by omega⟩
  | succ m ih =>
    intro r hr
    rw [List.range_succ, List.mapM_append] at hr
    cases hpre : (List.range m).mapM f with
    | error e =>
      rw [hpre, res_bind_error] at hr
      simp at hr
    | ok r1 =>
      rw [hpre, res_bind_ok] at hr
      cases hlast : f m with
      | error e =>
        rw [List.mapM_cons, hlast, res_bind_error] at hr
        simp at hr
      | ok v =>
        rw [List.mapM_cons, hlast, res_bind_ok, List.mapM_nil] at hr
        simp only [res_pure_eq, res_bind_ok] at hr
        cases hr
        obtain ⟨hlen1, hget1⟩ := ih r1 hpre
        constructor
        · simp [hlen1]
        · intro i hi
          by_cases him : i < m
          · rw [List.getD_eq_getElem?_getD, List.getElem?_append_left (by omega),
              ← List.getD_eq_getElem?_getD]
            exact hget1 i him
          · have hieq : i = m := by omega
            subst hieq
            rw [List.getD_eq_getElem?_getD, List.getElem?_append_right (by omega),
              hlen1]
            simp [hlast]

/-- Success characterization of the per-pixel plane fold: the resulting
index has, at each bit position `p` below the number of planes scanned,
exactly the plane-p bit of the pixel. -/
theorem pixel_fold_char (bm : BitMap) (yy xx : Nat) :
    ∀ n v, (List.range n).foldlM (pixel_plane_step bm yy xx) 0 = .ok v →
      v < 2 ^ n ∧ ∀ p, p < n →
        (v.testBit p =
          ((((bm.planes.getD p []).getD (yy * bm.stride + (xx >>> 3)) 0 >>>
            (7 - (xx &&& 0x07))) &&& 0x01) == 1)) := by
  intro n
  induction n with
  | zero =>
    intro v hv
    simp only [List.range_zero, List.foldlM_nil] at hv
    cases hv
    exact ⟨by norm_num, by omega⟩
  | succ m ih =>
    intro v hv
    rw [List.range_succ, List.foldlM_append] at hv
    cases hpre : (List.range m).foldlM (pixel_plane_step bm yy xx) 0 with
    | error e =>
      rw [hpre, res_bind_error] at hv
      simp at hv
    | ok v0 =>
      rw [hpre, res_bind_ok] at hv
      simp only [List.foldlM_cons, List.foldlM_nil] at hv
      rw [pixel_plane_step] at hv
      by_cases hp : m < bm.planes.length
      · rw [dif_pos hp] at hv
        by_cases hb : yy * bm.stride + (xx >>> 3) <
            (bm.planes.get ⟨m, hp⟩).length
        · rw [dif_pos hb] at hv
          simp only [res_bind_ok, res_pure_eq] at hv
          have hveq : v = v0 |||
              (((bm.planes.get ⟨m, hp⟩).get ⟨yy * bm.stride + (xx >>> 3), hb⟩ >>>
                (7 - (xx &&& 0x07))) &&& 0x01) <<< m := by
            cases hv
            rfl
          obtain ⟨hv0lt, hv0bits⟩ := ih v0 hpre
          set bit := ((bm.planes.get ⟨m, hp⟩).get ⟨yy * bm.stride + (xx >>> 3), hb⟩ >>>
            (7 - (xx &&& 0x07))) &&& 0x01 with hbit
          have hbit_le : bit ≤ 1 := Nat.and_le_right
          have hplane : bm.planes.getD m [] = bm.planes.get ⟨m, hp⟩ := by
            rw [List.get_eq_getElem, List.getD_eq_getElem _ _ hp]
          have hbyte : (bm.planes.getD m []).getD (yy * bm.stride + (xx >>> 3)) 0
              = (bm.planes.get ⟨m, hp⟩).get ⟨yy * bm.stride + (xx >>> 3), hb⟩ := by
            rw [hplane]
            exact (List.getD_eq_getElem _ _ hb).trans
              (List.get_eq_getElem _ ⟨yy * bm.stride + (xx >>> 3), hb⟩).symm
          have hgetD : bit = ((bm.planes.getD m []).getD
              (yy * bm.stride + (xx >>> 3)) 0 >>> (7 - (xx &&& 0x07))) &&& 0x01 := by
            rw [hbit, hbyte]
          constructor
          · rw [hveq]
            apply Nat.or_lt_two_pow
            · calc v0 < 2 ^ m := hv0lt
              _ ≤ 2 ^ (m + 1) := Nat.pow_le_pow_right (by norm_num) (by omega)
            · have : bit <<< m ≤ 1 <<< m := by
                simp only [Nat.shiftLeft_eq]
                exact Nat.mul_le_mul_right _ hbit_le
              calc bit <<< m ≤ 1 <<< m := this
              _ < 2 ^ (m + 1) := by
                  simp only [Nat.shiftLeft_eq, Nat.one_mul]
                  exact Nat.pow_lt_pow_right (by norm_num) (by omega)
          · intro p hpm
            rw [hveq, Nat.testBit_or, Nat.testBit_shiftLeft]
            by_cases hplt : p < m
            · rw [hv0bits p hplt]
              have hdec : decide (p ≥ m) = false := by simp; omega
              rw [hdec]
              simp
            · have hpeq : p = m := by omega
              subst hpeq
              have hv0f : v0.testBit p = false := Nat.testBit_lt_two_pow hv0lt
              rw [hv0f]
              have hdec : decide (p ≥ p) = true := by simp
              rw [hdec]
              have hsub : p - p = 0 := by omega
              rw [hsub, Nat.testBit_zero, ← hgetD]
              have hmod : bit % 2 = bit := Nat.mod_eq_of_lt (by omega)
              rw [hmod]
              simp only [Bool.false_or]
              cases Nat.le_one_iff_eq_zero_or_eq_one.mp hbit_le with
              | inl h0 => rw [h0]; rfl
              | inr h1 => rw [h1]; rfl
        · rw [dif_neg hb] at hv
          simp at hv
      · rw [dif_neg hp] at hv
        simp at hv

theorem flatten_length_const (rows : List (List Nat)) (w : Nat)
    (hall : ∀ b ∈ rows, b.length = w) :
    rows.flatten.length = rows.length * w := by
  rw [List.length_flatten]
  have hmap : rows.map List.length = rows.map (fun _ => w) :=
    List.map_congr_left hall
  rw [hmap, List.map_const', List.sum_replicate, smul_eq_mul]

theorem flatten_getD (rows : List (List Nat)) (w : Nat)
    (hall : ∀ b ∈ rows, b.length = w) (y x : Nat)
    (hy : y < rows.length) (hx : x < w) :
    rows.flatten.getD (y * w + x) 0 = (rows.getD y []).getD x 0 := by
  have hslice := flatten_block_slice w rows hall y hy
  rw [← hslice, List.getD_eq_getElem?_getD, List.getD_eq_getElem?_getD,
    List.getElem?_take, if_pos hx, List.getElem?_drop]

/-- Any successful result of the index-buffer scan has one entry per pixel,
whose bit `p` is the plane-p bit of that pixel. -/
theorem build_index_buffer_char (bm : BitMap) (ib : List Nat)
    (hok : build_index_buffer bm = .ok ib) :
    ib.length = bm.height * bm.width ∧
    ∀ y x p, y < bm.height → x < bm.width → p < bm.depth →
      ((ib.getD (y * bm.width + x) 0).testBit p =
        ((((bm.planes.getD p []).getD (y * bm.stride + (x >>> 3)) 0 >>>
          (7 - (x &&& 0x07))) &&& 0x01) == 1)) := by
  rw [build_index_buffer] at hok
  cases hrows : (List.range bm.height).mapM (fun yy =>
      (List.range bm.width).mapM (fun xx => pixel_index_at bm yy xx)) with
  | error e =>
    rw [hrows, res_bind_error] at hok
    simp at hok
  | ok rows =>
    rw [hrows, res_bind_ok, res_pure_eq] at hok
    cases hok
    obtain ⟨hrlen, hrget⟩ := mapM_range_char [] _ _ _ hrows
    have hall : ∀ b ∈ rows, b.length = bm.width := by
      intro b hb
      obtain ⟨y, hy, hyb⟩ := List.mem_iff_getElem.mp hb
      have hy2 : y < bm.height := by omega
      have := hrget y hy2
      obtain ⟨hwlen, -⟩ := mapM_range_char 0 _ _ _ this
      rw [← hyb, ← List.getD_eq_getElem _ [] hy]
      exact hwlen
    constructor
    · rw [flatten_length_const rows _ hall, hrlen]
    · intro y x p hy hx hp
      rw [flatten_getD rows _ hall y x (by omega) hx]
      have hrow := hrget y hy
      obtain ⟨hwlen, hwget⟩ := mapM_range_char 0 _ _ _ hrow
      have hpix := hwget x hx
      rw [pixel_index_at] at hpix
      obtain ⟨-, hbits⟩ := pixel_fold_char bm y x bm.depth _ hpix
      exact hbits p hp

theorem res_map_ok {α β : Type} (f : α → β) (a : α) :
    (Except.map f (Except.ok a) : Res β) = .ok (f a) := rfl

theorem res_map_error {α β : Type} (f : α → β) (e : RunErr) :
    (Except.map f (Except.error e : Res α) : Res β) = .error e := rfl

/-- C3: the per-pixel index array is computed at most once.  (i) A
successful conversion call on a BitMap with an empty cache stores the result
of the pixel scan in the cache; (ii) the scan gives one index per pixel
whose bit p is bit `7-(x&7)` of plane p's byte `y*stride+(x>>3)`; (iii) when
the cache is full, the call's output and resulting cache state are identical
for any plane contents whatsoever, and a successful call leaves the cached
array unchanged; (iv) the color table is rebuilt from the supplied palette
on every call, so with an unchanged cache a palette change still changes the
output. -/
theorem c3_index_cache_computed_once :
    (∀ (bm : BitMap) (pixels : List Nat) (stride : Nat) (pal : Palette)
        (key : Option Nat) (px2 : List Nat) (bm2 : BitMap),
      bm.index_buffer = none →
      bm.update_rgb32 pixels stride pal key = .ok (px2, bm2) →
      ∃ ib, build_index_buffer bm = .ok ib ∧ bm2.index_buffer = some ib) ∧
    (∀ (bm : BitMap) (ib : List Nat), build_index_buffer bm = .ok ib →
      ib.length = bm.height * bm.width ∧
      ∀ y x p, y < bm.height → x < bm.width → p < bm.depth →
        ((ib.getD (y * bm.width + x) 0).testBit p =
          ((((bm.planes.getD p []).getD (y * bm.stride + (x >>> 3)) 0 >>>
            (7 - (x &&& 0x07))) &&& 0x01) == 1))) ∧
    (∀ (bm : BitMap) (ib : List Nat) (planes2 : List (List Nat))
        (pixels : List Nat) (stride : Nat) (pal : Palette) (key : Option Nat),
      bm.index_buffer = some ib →
      (Except.map (fun r => (r.1, r.2.index_buffer))
          (({ bm with planes := planes2 } : BitMap).update_rgb32 pixels stride pal key)
        = Except.map (fun r => (r.1, r.2.index_buffer))
          (bm.update_rgb32 pixels stride pal key)) ∧
      (∀ px2 bm2, bm.update_rgb32 pixels stride pal key = .ok (px2, bm2) →
        bm2.index_buffer = some ib)) ∧
    (BitMap.update_rgb32 ⟨1, 1, 1, 2, [[0, 0]], some [0]⟩ [0, 0, 0, 0] 4
        ⟨[⟨0xF00⟩]⟩ none ≠
      BitMap.update_rgb32 ⟨1, 1, 1, 2, [[0, 0]], some [0]⟩ [0, 0, 0, 0] 4
        ⟨[⟨0x00F⟩]⟩ none) := by
  refine ⟨?_, ?_, ?_, ?_⟩
  · intro bm pixels stride pal key px2 bm2 hcache hupd
    obtain ⟨w, h, d, s, planes, cache⟩ := bm
    simp only at hcache
    subst hcache
    rw [BitMap.update_rgb32] at hupd
    by_cases hsz : pixels.length < w * h * 4
    · rw [if_pos hsz] at hupd
      simp at hupd
    · rw [if_neg hsz] at hupd
      cases htab : Palette.to_rgba32_table pal d with
      | error e =>
        rw [htab] at hupd
        simp at hupd
      | ok table0 =>
        rw [htab] at hupd
        simp only at hupd
        cases hbib : cached_index_buffer ⟨w, h, d, s, planes, none⟩ with
        | error e =>
          rw [hbib] at hupd
          simp at hupd
        | ok ib =>
          rw [hbib] at hupd
          simp only at hupd
          rw [cached_index_buffer] at hbib
          refine ⟨ib, hbib, ?_⟩
          generalize hCT : (match key with
            | some key_index =>
              if key_index < table0.length then table0.set key_index 0
              else table0
            | none => table0) = CT at hupd
          cases hwr : write_rows ib CT w h stride pixels with
          | error e =>
            rw [hwr] at hupd
            simp at hupd
          | ok pxout =>
            rw [hwr] at hupd
            simp only at hupd
            cases hupd
            rfl
  · intro bm ib hok
    exact build_index_buffer_char bm ib hok
  · intro bm ib planes2 pixels stride pal key hcache
    obtain ⟨w, h, d, s, planes, cache⟩ := bm
    simp only at hcache
    subst hcache
    constructor
    · simp only [BitMap.update_rgb32, cached_index_buffer]
      by_cases hsz : pixels.length < w * h * 4
      · rw [if_pos hsz, if_pos hsz]
      · rw [if_neg hsz, if_neg hsz]
        cases htab : Palette.to_rgba32_table pal d with
        | error e => rfl
        | ok table0 =>
          simp only
          generalize hCT : (match key with
            | some key_index =>
              if key_index < table0.length then table0.set key_index 0
              else table0
            | none => table0) = CT
          cases hwr : write_rows ib CT w h stride pixels with
          | error e => rfl
          | ok pxout => rfl
    · intro px2 bm2 hupd
      rw [BitMap.update_rgb32] at hupd
      by_cases hsz : pixels.length < w * h * 4
      · rw [if_pos hsz] at hupd
        simp at hupd
      · rw [if_neg hsz] at hupd
        cases htab : Palette.to_rgba32_table pal d with
        | error e =>
          rw [htab] at hupd
          simp at hupd
        | ok table0 =>
          rw [htab] at hupd
          simp only at hupd
          have hcib : cached_index_buffer ⟨w, h, d, s, planes, some ib⟩ = .ok ib := rfl
          rw [hcib] at hupd
          simp only at hupd
          generalize hCT : (match key with
            | some key_index =>
              if key_index < table0.length then table0.set key_index 0
              else table0
            | none => table0) = CT at hupd
          cases hwr : write_rows ib CT w h stride pixels with
          | error e =>
            rw [hwr] at hupd
            simp at hupd
          | ok pxout =>
            rw [hwr] at hupd
            simp only at hupd
            cases hupd
            rfl
  · intro heq
    have e1 : BitMap.update_rgb32 ⟨1, 1, 1, 2, [[0, 0]], some [0]⟩ [0, 0, 0, 0] 4
        ⟨[⟨0xF00⟩]⟩ none =
        .ok ([0xFF, 0, 0, 0xFF], ⟨1, 1, 1, 2, [[0, 0]], some [0]⟩) := rfl
    have e2 : BitMap.update_rgb32 ⟨1, 1, 1, 2, [[0, 0]], some [0]⟩ [0, 0, 0, 0] 4
        ⟨[⟨0x00F⟩]⟩ none =
        .ok ([0, 0, 0xFF, 0xFF], ⟨1, 1, 1, 2, [[0, 0]], some [0]⟩) := rfl
    rw [e1, e2] at heq
    simp at heq

/-- Witness for C3: a first call on a 1x1 bitmap with an empty cache
populates the cache with the scanned index array. -/
theorem c3_index_cache_computed_once_witness :
    ∃ ib, build_index_buffer ⟨1, 1, 1, 2, [[0x80, 0]], none⟩ = .ok ib ∧
      (⟨1, 1, 1, 2, [[0x80, 0]], some [1]⟩ : BitMap).index_buffer = some ib :=
  c3_index_cache_computed_once.1 ⟨1, 1, 1, 2, [[0x80, 0]], none⟩ [0, 0, 0, 0] 4
    ⟨[⟨0xFFF⟩]⟩ none [0, 0, 0, 0] ⟨1, 1, 1, 2, [[0x80, 0]], some [1]⟩ rfl rfl

/-- Witness for C4 on an 8x2, 2-plane bitmap. -/
theorem c4_interleaved_matches_contiguous_witness :
    ∃ bm1 bm2,
      BitMap.with_data [1, 2, 3, 4, 5, 6, 7, 8] 8 2 2 2 = .ok bm1 ∧
      BitMap.with_interleaved_data (reinterleave [1, 2, 3, 4, 5, 6, 7, 8] 2 2 2)
        8 2 2 2 = .ok bm2 ∧
      bm2 = bm1 := by
  obtain ⟨bm1, bm2, h1, h2, h3, h4, h5⟩ :=
    c4_interleaved_matches_contiguous [1, 2, 3, 4, 5, 6, 7, 8] 8 2 2 2
      (by decide) (by decide)
  exact ⟨bm1, bm2, h1, h2, h4⟩

/-- C9: `update_rgb32` only checks `pixels.len() >= width*height*4` and then
writes at `row*stride + col*4` with the caller-supplied stride.  For a 1x2
bitmap, a buffer of exactly width*height*4 = 8 bytes passes the check, yet
with stride 8 the second row is written at offsets 8..11 — out of bounds, a
panic instead of the error the spec requires. -/
theorem c9_update_rgb32_oob_write_panics :
    ([0, 0, 0, 0, 0, 0, 0, 0] : List Nat).length = 1 * 2 * 4 ∧
    BitMap.update_rgb32 ⟨1, 2, 1, 2, [[0, 0, 0, 0]], none⟩
      [0, 0, 0, 0, 0, 0, 0, 0] 8 ⟨[⟨0xFFF⟩]⟩ none = .error .fault :=
  ⟨rfl, rfl⟩

/-!  src/game/iff_image.rs: the ByteRun1 run-length decoder for compressed
BODY chunks (`IffImage::load_from_data`, lines 154-186).  `body_offset`
tracks compressed bytes consumed; the loop runs while it is below the
declared chunk length.  Rust's `input_data[offset + body_offset]` control
read panics out of range; the `get(..)` data reads return `Err` values. -/
def byte_run1_loop (input : List Nat) (offset chunk_size body_offset : Nat)
    (pixel_data : List Nat) : Res (List Nat) :=
  if h : body_offset < chunk_size then
    if hc : offset + body_offset < input.length then
      let n := toI8 (input.getD (offset + body_offset) 0)
      if 0 ≤ n then
        -- copy the next n+1 bytes literally
        let copy_size := n.toNat + 1
        if offset + body_offset + 1 + copy_size ≤ input.length then
          byte_run1_loop input offset chunk_size (body_offset + 1 + copy_size)
            (pixel_data ++ ((input.drop (offset + body_offset + 1)).take copy_size))
        else
          .error (.err "BODY chunk in ILBM is truncated during ByteRun1 literal copy")
      else if -127 ≤ n then
        -- the next byte is repeated (-n)+1 times
        let repeat_count := (-n).toNat + 1
        if offset + body_offset + 1 < input.length then
          byte_run1_loop input offset chunk_size (body_offset + 2)
            (pixel_data ++
              List.replicate repeat_count (input.getD (offset + body_offset + 1) 0))
        else
          .error (.err "BODY chunk in ILBM is truncated during ByteRun1 repeat")
      else
        -- n == -128 is a no-op
        byte_run1_loop input offset chunk_size (body_offset + 1) pixel_data
    else
      .error .fault
  else
    .ok pixel_data
termination_by chunk_size - body_offset
decreasing_by
  · omega
  · omega
  · omega

/-- C2: one decode step of the ByteRun1 state machine: control byte c >= 0
copies the next c+1 input bytes literally; c in [-127,-1] appends the next
byte (-c)+1 times; c = -128 appends nothing and consumes only the control
byte; decoding stops with the accumulated output once chunk_length
compressed bytes are consumed.  Decoding [02 AA BB CC FE 11 00 99] yields
[AA BB CC 11 11 11 99]. -/
theorem c2_byte_run1_decode :
    (∀ (input : List Nat) (offset cs bo : Nat) (acc : List Nat),
      bo < cs → offset + bo < input.length →
      ((0 ≤ toI8 (input.getD (offset + bo) 0) →
        offset + bo + 1 + ((toI8 (input.getD (offset + bo) 0)).toNat + 1)
          ≤ input.length →
        byte_run1_loop input offset cs bo acc =
          byte_run1_loop input offset cs
            (bo + 1 + ((toI8 (input.getD (offset + bo) 0)).toNat + 1))
            (acc ++ ((input.drop (offset + bo + 1)).take
              ((toI8 (input.getD (offset + bo) 0)).toNat + 1)))) ∧
      (-127 ≤ toI8 (input.getD (offset + bo) 0) →
        toI8 (input.getD (offset + bo) 0) < 0 →
        offset + bo + 1 < input.length →
        byte_run1_loop input offset cs bo acc =
          byte_run1_loop input offset cs (bo + 2)
            (acc ++ List.replicate ((-(toI8 (input.getD (offset + bo) 0))).toNat + 1)
              (input.getD (offset + bo + 1) 0))) ∧
      (toI8 (input.getD (offset + bo) 0) = -128 →
        byte_run1_loop input offset cs bo acc =
          byte_run1_loop input offset cs (bo + 1) acc))) ∧
    (∀ (input : List Nat) (offset cs bo : Nat) (acc : List Nat),
      cs ≤ bo → byte_run1_loop input offset cs bo acc = .ok acc) ∧
    byte_run1_loop [0x02, 0xAA, 0xBB, 0xCC, 0xFE, 0x11, 0x00, 0x99] 0 8 0 []
      = .ok [0xAA, 0xBB, 0xCC, 0x11, 0x11, 0x11, 0x99] := by
  refine ⟨?_, ?_, ?_⟩
  · intro input offset cs bo acc hlt hctrl
    refine ⟨?_, ?_, ?_⟩
    · intro hpos hsl
      rw [byte_run1_loop, dif_pos hlt, dif_pos hctrl]
      simp only [if_pos hpos, if_pos hsl]
    · intro hge hneg hbyte
      rw [byte_run1_loop, dif_pos hlt, dif_pos hctrl]
      simp only [if_neg (by omega : ¬ (0 ≤ toI8 (input.getD (offset + bo) 0))),
        if_pos hge, if_pos hbyte]
    · intro h128
      rw [byte_run1_loop, dif_pos hlt, dif_pos hctrl]
      simp only [h128]
      norm_num
  · intro input offset cs bo acc hge
    rw [byte_run1_loop, dif_neg (by omega)]
  · simp [byte_run1_loop, toI8]

/-!  src/game/hunk.rs: the Amiga hunk-file (segment container) loader.
`load_hunkfile` takes a file path and reads the bytes; the embedding starts
from the bytes.  The source has no error handling: every malformed-input
check is an `assert_eq!` or an unchecked index, i.e. a panic (`.fault`). -/

/-- hunk.rs `MAGIC_COOKIE`. -/
def MAGIC_COOKIE : Nat := 0x03F3

/-- hunk.rs `ALLOC_FLAG_MASK`. -/
def ALLOC_FLAG_MASK : Nat := 0x3FFFFFFF

/-- hunk.rs hunk type ids. -/
def HUNK_CODE : Nat := 0x03E9
def HUNK_DATA : Nat := 0x03EA
def HUNK_RELOC32 : Nat := 0x03EC
def HUNK_END : Nat := 0x03F2

/-- hunk.rs `HunkHeader`. -/
structure HunkHeader : Type where
  table_size : Nat
  first_hunk : Nat
  last_hunk : Nat
  hunk_sizes : List Nat
deriving Repr, DecidableEq

/-- hunk.rs `Hunk`. -/
structure Hunk : Type where
  hunk_id : Nat
  hunk_size : Nat
  data : List Nat
deriving Repr, DecidableEq

/-- hunk.rs `HunkData`. -/
structure HunkData : Type where
  header : HunkHeader
  hunks : List Hunk
deriving Repr, DecidableEq

theorem read_u32_ok_bounds (data : List Nat) (o v o2 : Nat)
    (h : read_u32 data o = .ok (v, o2)) : o2 = o + 4 ∧ o + 4 ≤ data.length := by
  rw [read_u32] at h
  by_cases hb : o + 4 ≤ data.length
  · rw [if_pos hb] at h
    cases h
    exact ⟨rfl, hb⟩
  · rw [if_neg hb] at h
    simp at h

/-- The inner offset loop of a RELOC32 block (hunk.rs lines 159-163): read
`count` 32-bit offsets from the file, each used only to read (not write) a
value at that offset within the target segment. -/
def relo_offsets (data hunk_data : List Nat) : Nat → Nat → Res Nat
  | offset, 0 => .ok offset
  | offset, Nat.succ k =>
    match read_u32 data offset with
    | .error e => .error e
    | .ok (rel_offset, o2) =>
      match read_u32 hunk_data rel_offset with
      | .error e => .error e
      | .ok _ => relo_offsets data hunk_data o2 k

theorem relo_offsets_mono (data hunk_data : List Nat) :
    ∀ k o o3, relo_offsets data hunk_data o k = .ok o3 → o ≤ o3 := by
  intro k
  induction k with
  | zero =>
    intro o o3 hr
    rw [relo_offsets] at hr
    cases hr
    exact Nat.le_refl _
  | succ m ih =>
    intro o o3 hr
    rw [relo_offsets] at hr
    cases h1 : read_u32 data o with
    | error e => rw [h1] at hr; simp at hr
    | ok p =>
      obtain ⟨rel_offset, o2⟩ := p
      rw [h1] at hr
      simp only at hr
      cases h2 : read_u32 hunk_data rel_offset with
      | error e => rw [h2] at hr; simp at hr
      | ok q =>
        rw [h2] at hr
        have hb := read_u32_ok_bounds data o rel_offset o2 h1
        have := ih o2 o3 hr
        omega

/-- The RELOC32 block loop of hunk.rs (lines 147-164): repeats until a zero
count; the target-segment index selects a previously loaded hunk (panic if
out of range).  Returns the advanced file offset. -/
def relo_loop (data : List Nat) (hunks : List Hunk) (offset : Nat) : Res Nat :=
  match h1 : read_u32 data offset with
  | .error e => .error e
  | .ok (count, o1) =>
    if count = 0 then .ok o1
    else
      match h2 : read_u32 data o1 with
      | .error e => .error e
      | .ok (hunk_num, o2) =>
        if hh : hunk_num < hunks.length then
          match h3 : relo_offsets data (hunks.get ⟨hunk_num, hh⟩).data o2 count with
          | .error e => .error e
          | .ok o3 => relo_loop data hunks o3
        else
          .error .fault
termination_by data.length - offset
decreasing_by
  have hb1 := read_u32_ok_bounds data offset count o1 h1
  have hb2 := read_u32_ok_bounds data o1 hunk_num o2 h2
  have hm := relo_offsets_mono data (hunks.get ⟨hunk_num, hh⟩).data count o2 o3 h3
  omega

theorem relo_loop_mono (data : List Nat) (hunks : List Hunk) :
    ∀ o o2, relo_loop data hunks o = .ok o2 → o + 4 ≤ o2 := by
  have H : ∀ m o o2, data.length - o ≤ m →
      relo_loop data hunks o = .ok o2 → o + 4 ≤ o2 := by
    intro m
    induction m with
    | zero =>
      intro o o2 hm hl
      rw [relo_loop] at hl
      cases h1 : read_u32 data o with
      | error e => rw [h1] at hl; simp at hl
      | ok p =>
        have hb := read_u32_ok_bounds data o p.1 p.2 h1
        exact absurd hb.2 (by omega)
    | succ m ih =>
      intro o o2 hm hl
      rw [relo_loop] at hl
      cases h1 : read_u32 data o with
      | error e => rw [h1] at hl; simp at hl
      | ok p =>
        obtain ⟨count, o1⟩ := p
        rw [h1] at hl
        simp only at hl
        have hb1 := read_u32_ok_bounds data o count o1 h1
        by_cases hz : count = 0
        · rw [if_pos hz] at hl
          cases hl
          omega
        · rw [if_neg hz] at hl
          cases h2 : read_u32 data o1 with
          | error e => rw [h2] at hl; simp at hl
          | ok q =>
            obtain ⟨hunk_num, o2x⟩ := q
            rw [h2] at hl
            simp only at hl
            have hb2 := read_u32_ok_bounds data o1 hunk_num o2x h2
            by_cases hh : hunk_num < hunks.length
            · rw [dif_pos hh] at hl
              cases h3 : relo_offsets data (hunks.get ⟨hunk_num, hh⟩).data
                  o2x count with
              | error e => rw [h3] at hl; simp at hl
              | ok o3 =>
                rw [h3] at hl
                have hm3 := relo_offsets_mono data _ count o2x o3 h3
                have := ih o3 o2 (by omega) hl
                omega
            · rw [dif_neg hh] at hl
              simp at hl
  intro o o2 hl
  exact H (data.length - o) o o2 (Nat.le_refl _) hl

/-- The main hunk iteration loop of hunk.rs (lines 117-168).  CODE/DATA
hunks check the declared size against the recorded size-table entry
(`assert_eq!`, panic on mismatch; the table lookup itself panics when the
slot index is out of range) and copy the payload; RELOC32 runs the
relocation no-op loop; END stops; any other id just continues with the next
32-bit word. -/
def hunk_loop (data : List Nat) (offset hunk_index : Nat) (acc : HunkData) :
    Res HunkData :=
  match h1 : read_u32 data offset with
  | .error e => .error e
  | .ok (hunk_id, o1) =>
    if hunk_id = HUNK_CODE ∨ hunk_id = HUNK_DATA then
      if hs : hunk_index < acc.header.hunk_sizes.length then
        let saved_size := acc.header.hunk_sizes.get ⟨hunk_index, hs⟩
        match h2 : read_u32 data o1 with
        | .error e => .error e
        | .ok (sz, o2) =>
          let size := sz * 4
          if saved_size = size then
            match rustSlice data o2 (o2 + size - 4) with
            | .error e => .error e
            | .ok payload =>
              hunk_loop data (o2 + size) (hunk_index + 1)
                ⟨acc.header, acc.hunks ++ [⟨hunk_id, size, payload⟩]⟩
          else
            .error .fault
      else
        .error .fault
    else if hunk_id = HUNK_RELOC32 then
      match h3 : relo_loop data acc.hunks o1 with
      | .error e => .error e
      | .ok o2 => hunk_loop data o2 hunk_index acc
    else if hunk_id = HUNK_END then
      .ok acc
    else
      hunk_loop data o1 hunk_index acc
termination_by data.length - offset
decreasing_by
  · have hb1 := read_u32_ok_bounds data offset hunk_id o1 h1
    have hb2 := read_u32_ok_bounds data o1 sz o2 h2
    omega
  · have hb1 := read_u32_ok_bounds data offset hunk_id o1 h1
    have hm := relo_loop_mono data acc.hunks o1 o2 h3
    omega
  · have hb1 := read_u32_ok_bounds data offset hunk_id o1 h1
    omega

/-- The HUNK_HEADER parse of hunk.rs `load_hunkfile`, lines 76-113: magic
cookie and reserved word checked by `assert_eq!` (panic on mismatch), then
table size / first / last slot indices.  The u32 subtraction
`last_hunk - first_hunk` panics (debug overflow) when last < first.  The
size-table loop is `for _index in [hunk_count]`, which iterates over the
ONE-ELEMENT ARRAY `[hunk_count]`, so exactly one size entry is read no
matter how many slots the header declares. -/
def load_hunkfile_header (file_data : List Nat) : Res (HunkHeader × Nat) :=
  match read_u32 file_data 0 with
  | .error e => .error e
  | .ok (cookie, o1) =>
    if cookie = MAGIC_COOKIE then
      match read_u32 file_data o1 with
      | .error e => .error e
      | .ok (strings, o2) =>
        if strings = 0 then
          match read_u32 file_data o2 with
          | .error e => .error e
          | .ok (table_size, o3) =>
            match read_u32 file_data o3 with
            | .error e => .error e
            | .ok (first_hunk, o4) =>
              match read_u32 file_data o4 with
              | .error e => .error e
              | .ok (last_hunk, o5) =>
                if first_hunk ≤ last_hunk then
                  -- source bug: the loop runs once, not hunk_count times
                  match read_u32 file_data o5 with
                  | .error e => .error e
                  | .ok (sz, o6) =>
                    .ok (⟨table_size, first_hunk, last_hunk,
                      [(sz &&& ALLOC_FLAG_MASK) * 4]⟩, o6)
                else
                  .error .fault
        else
          .error .fault
    else
      .error .fault

/-- hunk.rs `load_hunkfile` (lines 71-171), starting from the bytes of the
file. -/
def load_hunkfile (file_data : List Nat) : Res HunkData :=
  match load_hunkfile_header file_data with
  | .error e => .error e
  | .ok (hdr, offset) => hunk_loop file_data offset hdr.first_hunk ⟨hdr, []⟩

/-- C7: on input whose magic cookie differs from 0x03F3, or whose reserved
word is non-zero, the loader does not return a MalformedHeader error: it
panics (`assert_eq!`), and its error type has no MalformedHeader at all. -/
theorem c7_bad_header_panics_not_malformed :
    load_hunkfile [0, 0, 0, 0] = .error .fault ∧
    load_hunkfile [0, 0, 0x03, 0xF3, 0, 0, 0, 5] = .error .fault :=
  ⟨rfl, rfl⟩

/-- C8: the size-table loop iterates over the one-element array
`[hunk_count]`, so every successfully parsed header records exactly ONE
size entry, not `last - first + 1`.  On a header declaring slots 0..1 (two
slots, two size entries present in the input), the parsed table is the
single entry `[4]` and the cursor stops after one entry (offset 24, not
28). -/
theorem c8_size_table_reads_one_entry :
    (∀ (file_data : List Nat) (hdr : HunkHeader) (off : Nat),
      load_hunkfile_header file_data = .ok (hdr, off) →
      hdr.hunk_sizes.length = 1) ∧
    (load_hunkfile_header
        [0, 0, 0x03, 0xF3, 0, 0, 0, 0, 0, 0, 0, 2, 0, 0, 0, 0,
         0, 0, 0, 1, 0, 0, 0, 1, 0, 0, 0, 2]
      = .ok (⟨2, 0, 1, [4]⟩, 24) ∧
     (1 : Nat) - 0 + 1 = 2 ∧
     ([4] : List Nat).length ≠ 2) := by
  constructor
  · intro file_data hdr off hl
    rw [load_hunkfile_header] at hl
    cases h1 : read_u32 file_data 0 with
    | error e => rw [h1] at hl; simp at hl
    | ok p1 =>
      obtain ⟨cookie, o1⟩ := p1
      rw [h1] at hl
      simp only at hl
      by_cases hc : cookie = MAGIC_COOKIE
      · rw [if_pos hc] at hl
        cases h2 : read_u32 file_data o1 with
        | error e => rw [h2] at hl; simp at hl
        | ok p2 =>
          obtain ⟨strings, o2⟩ := p2
          rw [h2] at hl
          simp only at hl
          by_cases hstr : strings = 0
          · rw [if_pos hstr] at hl
            cases h3 : read_u32 file_data o2 with
            | error e => rw [h3] at hl; simp at hl
            | ok p3 =>
              obtain ⟨table_size, o3⟩ := p3
              rw [h3] at hl
              simp only at hl
              cases h4 : read_u32 file_data o3 with
              | error e => rw [h4] at hl; simp at hl
              | ok p4 =>
                obtain ⟨first_hunk, o4⟩ := p4
                rw [h4] at hl
                simp only at hl
                cases h5 : read_u32 file_data o4 with
                | error e => rw [h5] at hl; simp at hl
                | ok p5 =>
                  obtain ⟨last_hunk, o5⟩ := p5
                  rw [h5] at hl
                  simp only at hl
                  by_cases hfl : first_hunk ≤ last_hunk
                  · rw [if_pos hfl] at hl
                    cases h6 : read_u32 file_data o5 with
                    | error e => rw [h6] at hl; simp at hl
                    | ok p6 =>
                      obtain ⟨sz, o6⟩ := p6
                      rw [h6] at hl
                      simp only at hl
                      cases hl
                      rfl
                  · rw [if_neg hfl] at hl
                    simp at hl
          · rw [if_neg hstr] at hl
            simp at hl
      · rw [if_neg hc] at hl
        simp at hl
  · exact ⟨rfl, rfl, by decide⟩

/-- Witness for C8's universal part at the concrete two-slot input. -/
theorem c8_size_table_reads_one_entry_witness :
    (⟨2, 0, 1, [4]⟩ : HunkHeader).hunk_sizes.length = 1 :=
  c8_size_table_reads_one_entry.1
    [0, 0, 0x03, 0xF3, 0, 0, 0, 0, 0, 0, 0, 2, 0, 0, 0, 0,
     0, 0, 0, 1, 0, 0, 0, 1, 0, 0, 0, 2] ⟨2, 0, 1, [4]⟩ 24 rfl

/-!  src/game/font.rs: the per-size DiskFont payload parser (`load_font`,
lines 384-535), embedded from the single payload segment's bytes.  The
`name` argument is the directory-supplied fallback name.  Strings are kept
as raw byte lists (UTF-8 validity of names is not modeled). -/

/-- The scan of byteops.rs `read_string` (lines 36-58): starting one byte
past the string start, advance while the current byte is non-zero; indexing
past the end of the buffer panics.  `rem` is the number of readable bytes
left (`data.length - e` at every call), passed structurally. -/
def read_string_scan (data : List Nat) : Nat → Nat → Res Nat
  | _, 0 => .error .fault
  | e, Nat.succ rem =>
    if data.getD e 0 ≠ 0 then read_string_scan data (e + 1) rem else .ok e

/-- byteops.rs `read_string`: returns the raw bytes up to (not including)
the first NUL at index ≥ offset+1, and the advanced offset; a
single-NUL-byte string is normalized to empty. -/
def read_string (data : List Nat) (offset : Nat) : Res (List Nat × Nat) :=
  match read_string_scan data (offset + 1) (data.length - (offset + 1)) with
  | .error e => .error e
  | .ok str_end =>
    if str_end - offset = 1 then
      .ok ([], offset + (str_end - offset))
    else
      .ok ((data.drop offset).take (str_end - offset), offset + (str_end - offset))

/-- The fixed-position header fields of the DiskFont payload read by
font.rs `load_font` lines 395-459. -/
structure FontHeaderInfo : Type where
  name : List Nat
  y_size : Nat
  style : Nat
  flags : Nat
  x_size : Nat
  baseline : Nat
  boldsmear : Nat
  lo_char : Nat
  hi_char : Nat
  font_data_offset : Nat
  modulo : Nat
  font_loc_offset : Nat
  font_space_offset : Nat
  font_kern_offset : Nat
deriving Repr, DecidableEq

/-- font.rs `load_font` lines 395-459: the straight-line header parse of a
DiskFont payload (skips, sentinel checks and field reads). -/
def load_font_fields (hunk_data : List Nat) : Res FontHeaderInfo := do
  let (_, o) ← read_u32 hunk_data 0        -- MOVEQ/RTS placeholder
  let (_, o) ← read_u32 hunk_data o        -- ln_Succ
  let (_, o) ← read_u32 hunk_data o        -- ln_Prev
  let (ln_type, o) ← read_u8 hunk_data o   -- ln_Type
  if ln_type ≠ 12 then
    throw (RunErr.err "invalid Node type (DiskFont)")
  let o := o + 1                           -- ln_Pri
  let o := o + 4                           -- ln_Name
  let (file_id, o) ← read_u16 hunk_data o
  if file_id ≠ 0x0F80 then
    throw (RunErr.err "invalid DiskFont ID")
  let o := o + 2                           -- dfh_Revision
  let o := o + 4                           -- dfh_Segment
  let (name_bytes, _) ← read_string hunk_data o
  let o := o + 32                          -- dfh_Name is always 32 bytes
  let o := o + 4                           -- ln_Succ
  let o := o + 4                           -- ln_Prev
  let (ln_type2, o) ← read_u8 hunk_data o
  if ln_type2 ≠ 12 then
    throw (RunErr.err "invalid Node type (TextFont)")
  let o := o + 1                           -- ln_Pri
  let o := o + 4                           -- ln_Name
  let o := o + 4                           -- mn_ReplyPort
  let o := o + 2                           -- reserved for 1.4
  let (y_size, o) ← read_i16 hunk_data o
  let (style, o) ← read_u8 hunk_data o
  let (flags, o) ← read_u8 hunk_data o
  let (x_size, o) ← read_i16 hunk_data o
  let (baseline, o) ← read_i16 hunk_data o
  let (boldsmear, o) ← read_i16 hunk_data o
  let o := o + 2                           -- tf_Accessors
  let (lo_char, o) ← read_u8 hunk_data o
  let (hi_char, o) ← read_u8 hunk_data o
  let (font_data_offset, o) ← read_i32 hunk_data o
  let (modulo, o) ← read_i16 hunk_data o
  let (font_loc_offset, o) ← read_i32 hunk_data o
  let (font_space_offset, o) ← read_i32 hunk_data o
  let (font_kern_offset, _) ← read_i32 hunk_data o
  pure ⟨name_bytes, intToUsize y_size, style, flags, intToUsize x_size,
    intToUsize baseline, intToUsize boldsmear, lo_char, hi_char,
    intToUsize font_data_offset, intToUsize modulo,
    intToUsize font_loc_offset, intToUsize font_space_offset,
    intToUsize font_kern_offset⟩

/-- The fixed 16-entry nibble lookup table `foo` of font.rs lines 471-488. -/
def foo_table : List (List Nat) :=
  [[0x00, 0x00, 0x00, 0x00], [0x00, 0x00, 0x00, 0xFF],
   [0x00, 0x00, 0xFF, 0x00], [0x00, 0x00, 0xFF, 0xFF],
   [0x00, 0xFF, 0x00, 0x00], [0x00, 0xFF, 0x00, 0xFF],
   [0x00, 0xFF, 0xFF, 0x00], [0x00, 0xFF, 0xFF, 0xFF],
   [0xFF, 0x00, 0x00, 0x00], [0xFF, 0x00, 0x00, 0xFF],
   [0xFF, 0x00, 0xFF, 0x00], [0xFF, 0x00, 0xFF, 0xFF],
   [0xFF, 0xFF, 0x00, 0x00], [0xFF, 0xFF, 0x00, 0xFF],
   [0xFF, 0xFF, 0xFF, 0x00], [0xFF, 0xFF, 0xFF, 0xFF]]

/-- Expanding one source byte through the table, high nibble first (font.rs
lines 500-501); indexing the 16-entry array panics for a non-byte value. -/
def nibble_expand (cc : Nat) : Res (List Nat) :=
  if cc >>> 4 < 16 then
    .ok ((foo_table.getD (cc >>> 4) []) ++ (foo_table.getD (cc &&& 0xF) []))
  else
    .error .fault

/-- The bitmap-to-alpha-mask unpack loop of font.rs lines 493-503. -/
def unpack_char_data (hunk_data : List Nat) (hdr : FontHeaderInfo) :
    Res (List Nat) := do
  let rows ← (List.range hdr.y_size).mapM (fun yy => do
    let row ← (List.range hdr.modulo).mapM (fun xx =>
      if hdr.font_data_offset + yy * hdr.modulo + xx < hunk_data.length then
        nibble_expand
          (hunk_data.getD (hdr.font_data_offset + yy * hdr.modulo + xx) 0)
      else .error .fault)
    pure row.flatten)
  pure rows.flatten

/-- font.rs `DiskFont`. -/
structure DiskFont : Type where
  name : List Nat
  y_size : Nat
  x_size : Nat
  style : Nat
  flags : Nat
  baseline : Nat
  boldsmear : Nat
  lo_char : Nat
  hi_char : Nat
  char_data : List Nat
  modulo : Nat
  char_loc : List (Nat × Nat)
  char_space : List Int
  char_kern : List Int
deriving Repr, DecidableEq

/-- Rust usize subtraction, which panics (debug overflow check) when the
subtrahend is larger. -/
def checked_sub (a b : Nat) : Res Nat :=
  if b ≤ a then .ok (a - b) else .error .fault

/-- One iteration of the glyph-table loop of font.rs lines 508-532: push
the (bit-offset, bit-width) location pair, and a spacing / kerning entry
when the respective table offset is non-zero. -/
def glyph_step (hunk_data : List Nat) (hdr : FontHeaderInfo) (df : DiskFont)
    (index : Nat) : Res DiskFont := do
  let (char_off, o) ← read_u16 hunk_data (hdr.font_loc_offset + index * 4)
  let (char_len, _) ← read_u16 hunk_data o
  let df := { df with char_loc := df.char_loc ++ [(char_off, char_len)] }
  let df ←
    if hdr.font_space_offset > 0 then do
      let (char_space, _) ← read_i16 hunk_data (hdr.font_space_offset + index * 2)
      pure { df with char_space := df.char_space ++ [char_space] }
    else pure df
  if hdr.font_kern_offset > 0 then do
    let (char_kern, _) ← read_i16 hunk_data (hdr.font_kern_offset + index * 2)
    pure { df with char_kern := df.char_kern ++ [char_kern] }
  else pure df

/-- font.rs `load_font` lines 384-534 from the payload segment's bytes:
header fields, alpha-mask unpack, modulo adjustment, then one glyph-table
iteration per code in `0 ..= hi_char - lo_char`. -/
def load_font (hunk_data name : List Nat) : Res DiskFont := do
  let hdr ← load_font_fields hunk_data
  let char_data ← unpack_char_data hunk_data hdr
  let char_count ← checked_sub hdr.hi_char hdr.lo_char
  let df0 : DiskFont :=
    ⟨(if hdr.name.length = 0 then name else hdr.name), hdr.y_size, hdr.x_size,
      hdr.style, hdr.flags, hdr.baseline, hdr.boldsmear, hdr.lo_char,
      hdr.hi_char, char_data, hdr.modulo * 8, [], [], []⟩
  (List.range (char_count + 1)).foldlM (glyph_step hunk_data hdr) df0

theorem glyph_step_effect (hunk_data : List Nat) (hdr : FontHeaderInfo)
    (df df1 : DiskFont) (index : Nat)
    (h : glyph_step hunk_data hdr df index = .ok df1) :
    df1.lo_char = df.lo_char ∧ df1.hi_char = df.hi_char ∧
    df1.char_loc.length = df.char_loc.length + 1 ∧
    df1.char_space.length = df.char_space.length +
      (if hdr.font_space_offset > 0 then 1 else 0) ∧
    df1.char_kern.length = df.char_kern.length +
      (if hdr.font_kern_offset > 0 then 1 else 0) := by
  rw [glyph_step] at h
  cases h1 : read_u16 hunk_data (hdr.font_loc_offset + index * 4) with
  | error e => rw [h1, res_bind_error] at h; simp at h
  | ok p1 =>
    obtain ⟨char_off, o⟩ := p1
    rw [h1, res_bind_ok] at h
    simp only at h
    cases h2 : read_u16 hunk_data o with
    | error e => rw [h2, res_bind_error] at h; simp at h
    | ok p2 =>
      obtain ⟨char_len, o2⟩ := p2
      rw [h2, res_bind_ok] at h
      simp only at h
      by_cases hsp : hdr.font_space_offset > 0
      · rw [if_pos hsp] at h
        cases h3 : read_i16 hunk_data (hdr.font_space_offset + index * 2) with
        | error e => rw [h3, res_bind_error] at h; simp at h
        | ok p3 =>
          obtain ⟨char_space, o3⟩ := p3
          rw [h3] at h
          simp only [res_bind_ok, res_pure_eq] at h
          by_cases hk : hdr.font_kern_offset > 0
          · rw [if_pos hk] at h
            cases h4 : read_i16 hunk_data (hdr.font_kern_offset + index * 2) with
            | error e => rw [h4, res_bind_error] at h; simp at h
            | ok p4 =>
              obtain ⟨char_kern, o4⟩ := p4
              rw [h4] at h
              simp only [res_bind_ok, res_pure_eq] at h
              cases h
              simp [hsp, hk]
          · rw [if_neg hk] at h
            cases h
            simp [hsp, hk]
      · rw [if_neg hsp] at h
        simp only [res_bind_ok, res_pure_eq] at h
        by_cases hk : hdr.font_kern_offset > 0
        · rw [if_pos hk] at h
          cases h4 : read_i16 hunk_data (hdr.font_kern_offset + index * 2) with
          | error e => rw [h4, res_bind_error] at h; simp at h
          | ok p4 =>
            obtain ⟨char_kern, o4⟩ := p4
            rw [h4] at h
            simp only [res_bind_ok, res_pure_eq] at h
            cases h
            simp [hsp, hk]
        · rw [if_neg hk] at h
          cases h
          simp [hsp, hk]

theorem glyph_fold_lengths (hunk_data : List Nat) (hdr : FontHeaderInfo) :
    ∀ (l : List Nat) (df0 df : DiskFont),
      l.foldlM (glyph_step hunk_data hdr) df0 = .ok df →
      df.lo_char = df0.lo_char ∧ df.hi_char = df0.hi_char ∧
      df.char_loc.length = df0.char_loc.length + l.length ∧
      df.char_space.length = df0.char_space.length +
        (if hdr.font_space_offset > 0 then l.length else 0) ∧
      df.char_kern.length = df0.char_kern.length +
        (if hdr.font_kern_offset > 0 then l.length else 0) := by
  intro l
  induction l with
  | nil =>
    intro df0 df h
    rw [List.foldlM_nil] at h
    cases h
    refine ⟨rfl, rfl, by simp, ?_, ?_⟩ <;> split <;> simp
  | cons a t ih =>
    intro df0 df h
    rw [List.foldlM_cons] at h
    cases hstep : glyph_step hunk_data hdr df0 a with
    | error e => rw [hstep, res_bind_error] at h; simp at h
    | ok df1 =>
      rw [hstep, res_bind_ok] at h
      obtain ⟨e1, e2, e3, e4, e5⟩ := glyph_step_effect _ _ _ _ _ hstep
      obtain ⟨f1, f2, f3, f4, f5⟩ := ih df1 df h
      refine ⟨f1.trans e1, f2.trans e2, by simp; omega, ?_, ?_⟩
      · by_cases hsp : hdr.font_space_offset > 0 <;>
          simp [hsp] at e4 f4 ⊢ <;> omega
      · by_cases hk : hdr.font_kern_offset > 0 <;>
          simp [hk] at e5 f5 ⊢ <;> omega

/-- C10: every successfully loaded per-size font payload has exactly
`hi_char - lo_char + 1` glyph-location entries, and its spacing and kerning
tables are empty exactly when the respective declared 32-bit table offset in
the payload is zero, and otherwise also have `hi_char - lo_char + 1`
entries. -/
theorem c10_font_tables (hunk_data name : List Nat) (df : DiskFont)
    (hok : load_font hunk_data name = .ok df) :
    ∃ hdr, load_font_fields hunk_data = .ok hdr ∧
      df.lo_char = hdr.lo_char ∧ df.hi_char = hdr.hi_char ∧
      hdr.lo_char ≤ hdr.hi_char ∧
      df.char_loc.length = df.hi_char - df.lo_char + 1 ∧
      (df.char_space = [] ↔ hdr.font_space_offset = 0) ∧
      (hdr.font_space_offset ≠ 0 →
        df.char_space.length = df.hi_char - df.lo_char + 1) ∧
      (df.char_kern = [] ↔ hdr.font_kern_offset = 0) ∧
      (hdr.font_kern_offset ≠ 0 →
        df.char_kern.length = df.hi_char - df.lo_char + 1) := by
  rw [load_font] at hok
  cases hh : load_font_fields hunk_data with
  | error e => rw [hh, res_bind_error] at hok; simp at hok
  | ok hdr =>
    rw [hh, res_bind_ok] at hok
    cases hcd : unpack_char_data hunk_data hdr with
    | error e => rw [hcd, res_bind_error] at hok; simp at hok
    | ok char_data =>
      rw [hcd, res_bind_ok] at hok
      cases hcc : checked_sub hdr.hi_char hdr.lo_char with
      | error e => rw [hcc, res_bind_error] at hok; simp at hok
      | ok char_count =>
        rw [hcc, res_bind_ok] at hok
        have hcc2 : hdr.lo_char ≤ hdr.hi_char ∧
            char_count = hdr.hi_char - hdr.lo_char := by
          rw [checked_sub] at hcc
          by_cases hle : hdr.lo_char ≤ hdr.hi_char
          · rw [if_pos hle] at hcc
            cases hcc
            exact ⟨hle, rfl⟩
          · rw [if_neg hle] at hcc
            simp at hcc
        obtain ⟨g1, g2, g3, g4, g5⟩ := glyph_fold_lengths hunk_data hdr _ _ df hok
        simp only [List.length_range, List.length_nil, Nat.zero_add] at g1 g2 g3 g4 g5
        refine ⟨hdr, rfl, g1, g2, hcc2.1, ?_, ?_, ?_, ?_, ?_⟩
        · rw [g3, g1, g2]
          omega
        · rw [← List.length_eq_zero, g4]
          by_cases hsp : hdr.font_space_offset > 0 <;> simp [hsp] <;> omega
        · intro hsp
          rw [g4, if_pos (by omega), g1, g2]
          omega
        · rw [← List.length_eq_zero, g5]
          by_cases hk : hdr.font_kern_offset > 0 <;> simp [hk] <;> omega
        · intro hk
          rw [g5, if_pos (by omega), g1, g2]
          omega

/-- Witness for C10 at a minimal all-monospace payload (110 bytes, NT_FONT
sentinels and DiskFont id set, lo_char = hi_char = 0, all table offsets
zero). -/
theorem c10_font_tables_witness :
    ∃ hdr df,
      load_font ((((List.replicate 110 0).set 12 12).set 18 15).set 19 128
        |>.set 66 12) [] = .ok df ∧
      load_font_fields ((((List.replicate 110 0).set 12 12).set 18 15).set 19 128
        |>.set 66 12) = .ok hdr ∧
      df.char_loc.length = df.hi_char - df.lo_char + 1 ∧
      (df.char_space = [] ↔ hdr.font_space_offset = 0) := by
  have hok : load_font ((((List.replicate 110 0).set 12 12).set 18 15).set 19 128
      |>.set 66 12) [] =
      .ok ⟨[], 0, 0, 0, 0, 0, 0, 0, 0, [], 0, [(0, 0)], [], []⟩ := rfl
  obtain ⟨hdr, hfields, h1, h2, h3, hloc, hspemp, h4, h5, h6⟩ :=
    c10_font_tables _ [] _ hok
  exact ⟨hdr, _, hok, hfields, hloc, hspemp⟩

/-- Witness for C2: one literal-copy step followed by loop exit decodes
[02 AA BB CC] to [AA BB CC]. -/
theorem c2_byte_run1_decode_witness :
    byte_run1_loop [0x02, 0xAA, 0xBB, 0xCC] 0 4 0 [] = .ok [0xAA, 0xBB, 0xCC] := by
  have h1 := (c2_byte_run1_decode.1 [0x02, 0xAA, 0xBB, 0xCC] 0 4 0 []
    (by decide) (by decide)).1 (by decide) (by decide)
  exact h1.trans (c2_byte_run1_decode.2.1 _ _ _ _ _ (by decide))

end Faery
